import Mathlib

/-!
Verification development for the `qd` extended-precision arithmetic library.

The repository sources under verification are:
  * `src/double.rs`            — the two-limb type `Double` (`new`, `raw`, `Index`),
  * `src/quad/arith/div.rs`    — `Div` for the four-limb type `Quad` and `mul_f64`,
  * `src/double/trig/common.rs`— `sin_taylor`, `cos_taylor`, `sincos_taylor`, `reduce`,
  * `src/double/trig/tan.rs`, `src/quad/trig/tan.rs` — `tan`,
  * `src/double/alg/recip.rs`  — `recip`.

The native `f64` limbs and the error-free-transformation / renormalization
primitives (`common::core`), the constant tables, the `Double`/`Quad`
arithmetic operators other than `Quad` division, and `sin_cos` are not part
of the given sources; following the specification they are modelled here.
Native floats are modelled as exact rational values extended with the IEEE
special encodings (signed zero, signed infinity, NaN) that the specification
requires (§3 "Sign, zero, infinity and NaN semantics mirror native float
semantics"); the idealization makes every error-free transformation's error
term exactly zero.
-/

/-- Modelled from the spec: a native float limb.  The spec (§3) requires sign,
zero, infinity and NaN semantics mirroring native floats; finite values are
idealized as exact rationals in sign-magnitude form (`fin s m` has sign bit
`s` and magnitude `m`), so that signed zeros are representable. -/
inductive Fl where
  | nan : Fl
  | inf : Bool → Fl
  | fin : Bool → ℚ → Fl
deriving DecidableEq

/-- Signed rational value of a limb (0 for the non-finite encodings). -/
def sval : Fl → ℚ
  | .fin s m => if s then -m else m
  | _ => 0

/-- Canonical finite limb for a signed value `v`; `z` is the sign bit used
when `v = 0` (zero signs follow the IEEE rules at each operation). -/
def mkFin (v : ℚ) (z : Bool) : Fl :=
  if v = 0 then .fin z 0 else .fin (decide (v < 0)) |v|

def flPZ : Fl := .fin false 0

def isNanB : Fl → Bool
  | .nan => true
  | _ => false

def isInfB : Fl → Bool
  | .inf _ => true
  | _ => false

def isFinB : Fl → Bool
  | .fin _ _ => true
  | _ => false

def isZeroB : Fl → Bool
  | .fin _ m => m == 0
  | _ => false

def signBit : Fl → Bool
  | .nan => false
  | .inf s => s
  | .fin s _ => s

def flNeg : Fl → Fl
  | .nan => .nan
  | .inf s => .inf (!s)
  | .fin s m => .fin (!s) m

def flAbs : Fl → Fl
  | .nan => .nan
  | .inf _ => .inf false
  | .fin _ m => .fin false m

/-- Modelled from the spec: native float addition (exact on finite values;
IEEE special rules: NaN propagates, `∞ + (-∞) = NaN`, `(-0) + (-0) = -0`,
a zero sum from cancellation is `+0`). -/
def flAdd : Fl → Fl → Fl
  | .nan, _ => .nan
  | _, .nan => .nan
  | .inf s, .inf t => if s = t then .inf s else .nan
  | .inf s, .fin _ _ => .inf s
  | .fin _ _, .inf t => .inf t
  | .fin s m, .fin t k => mkFin (sval (.fin s m) + sval (.fin t k)) (s && t)

def flSub (x y : Fl) : Fl := flAdd x (flNeg y)

/-- Modelled from the spec: native float multiplication (exact on finite
values; sign of the product is the xor of the sign bits, `∞ × 0 = NaN`). -/
def flMul : Fl → Fl → Fl
  | .nan, _ => .nan
  | _, .nan => .nan
  | .inf s, .inf t => .inf (xor s t)
  | .inf s, .fin t m => if m = 0 then .nan else .inf (xor s t)
  | .fin s m, .inf t => if m = 0 then .nan else .inf (xor s t)
  | .fin s m, .fin t k => .fin (xor s t) (m * k)

/-- Modelled from the spec: native float division (exact on finite values;
`0/0 = NaN`, `x/±0 = ±∞`, `∞/∞ = NaN`, `x/∞ = ±0`). -/
def flDiv : Fl → Fl → Fl
  | .nan, _ => .nan
  | _, .nan => .nan
  | .inf _, .inf _ => .nan
  | .inf s, .fin t _ => .inf (xor s t)
  | .fin s _, .inf t => .fin (xor s t) 0
  | .fin s m, .fin t k =>
      if k = 0 then (if m = 0 then .nan else .inf (xor s t))
      else .fin (xor s t) (m / k)

/-- Rust `f64::round`: round half away from zero. -/
def rustRound (x : ℚ) : ℤ := if 0 ≤ x then ⌊x + 1/2⌋ else -⌊-x + 1/2⌋

/-- Rust `as` float-to-integer cast: truncation toward zero. -/
def qTrunc (x : ℚ) : ℤ := if 0 ≤ x then ⌊x⌋ else -⌊-x⌋

def flRound : Fl → Fl
  | .nan => .nan
  | .inf s => .inf s
  | .fin s m => mkFin ((rustRound (if s then -m else m) : ℤ) : ℚ) s

def flFloor : Fl → Fl
  | .nan => .nan
  | .inf s => .inf s
  | .fin s m => mkFin ((⌊(if s then -m else m : ℚ)⌋ : ℤ) : ℚ) s

/-- Rust `f64 as i32`: truncation toward zero, saturating, NaN to 0. -/
def flToI32 : Fl → ℤ
  | .nan => 0
  | .inf s => if s then -2147483648 else 2147483647
  | .fin s m =>
      let t := qTrunc (if s then -m else m)
      if t < -2147483648 then -2147483648
      else if 2147483647 < t then 2147483647
      else t

/-- Native float `≤` as a Bool (NaN unordered). -/
def flLeB : Fl → Fl → Bool
  | .nan, _ => false
  | _, .nan => false
  | .inf s, .inf t => (s == t) || s
  | .inf s, .fin _ _ => s
  | .fin _ _, .inf t => !t
  | .fin s m, .fin t k => decide ((if s then -m else m) ≤ (if t then -k else k))

/-- Computable nonnegative rational approximation of the square root,
used to model the (otherwise unspecified) finite branch of `sqrt`. -/
def sqrtQ (x : ℚ) : ℚ :=
  if x ≤ 0 then 0 else (Nat.sqrt (x.num.toNat * x.den) : ℚ) / (x.den : ℚ)

/-- Modelled from the spec: native float square root semantics (§3/§7
"mirror native float semantics"): NaN for negative arguments, `sqrt(±0) = ±0`,
`sqrt(+∞) = +∞`; the finite positive branch is an exact-model approximation. -/
def flSqrt : Fl → Fl
  | .nan => .nan
  | .inf s => if s then .nan else .inf false
  | .fin s m =>
      let v : ℚ := if s then -m else m
      if v < 0 then .nan
      else if v = 0 then .fin s 0
      else .fin false (sqrtQ v)

theorem sval_mkFin (v : ℚ) (z : Bool) : sval (mkFin v z) = v := by
  unfold mkFin
  by_cases h : v = 0
  · simp [h, sval]
  · rcases lt_or_ge v 0 with hv | hv
    · simp [h, sval, hv, abs_of_neg hv]
    · simp [h, sval, not_lt.mpr hv, abs_of_nonneg hv]

theorem isFinB_mkFin (v : ℚ) (z : Bool) : isFinB (mkFin v z) = true := by
  unfold mkFin
  by_cases h : v = 0 <;> simp [h, isFinB]

theorem sval_fin (s : Bool) (m : ℚ) : sval (.fin s m) = if s then -m else m := rfl

theorem flAdd_fin (hx : isFinB x = true) (hy : isFinB y = true) :
    isFinB (flAdd x y) = true ∧ sval (flAdd x y) = sval x + sval y := by
  cases x with
  | nan => simp [isFinB] at hx
  | inf s => simp [isFinB] at hx
  | fin s m =>
    cases y with
    | nan => simp [isFinB] at hy
    | inf t => simp [isFinB] at hy
    | fin t k => exact ⟨isFinB_mkFin _ _, sval_mkFin _ _⟩

theorem flMul_fin (hx : isFinB x = true) (hy : isFinB y = true) :
    isFinB (flMul x y) = true ∧ sval (flMul x y) = sval x * sval y := by
  cases x with
  | nan => simp [isFinB] at hx
  | inf s => simp [isFinB] at hx
  | fin s m =>
    cases y with
    | nan => simp [isFinB] at hy
    | inf t => simp [isFinB] at hy
    | fin t k =>
      refine ⟨rfl, ?_⟩
      cases s <;> cases t <;> simp [flMul, sval]

theorem flNeg_fin (hx : isFinB x = true) :
    isFinB (flNeg x) = true ∧ sval (flNeg x) = -sval x := by
  cases x with
  | nan => simp [isFinB] at hx
  | inf s => simp [isFinB] at hx
  | fin s m =>
    refine ⟨rfl, ?_⟩
    cases s <;> simp [flNeg, sval]

theorem flSub_fin (hx : isFinB x = true) (hy : isFinB y = true) :
    isFinB (flSub x y) = true ∧ sval (flSub x y) = sval x - sval y := by
  obtain ⟨h1, h2⟩ := flNeg_fin hy
  obtain ⟨h3, h4⟩ := flAdd_fin hx h1
  exact ⟨h3, by rw [flSub, h4, h2]; ring⟩

theorem flDiv_fin (hx : isFinB x = true) (hy : isFinB y = true)
    (hvy : sval y ≠ 0) :
    isFinB (flDiv x y) = true ∧ sval (flDiv x y) = sval x / sval y := by
  cases x with
  | nan => simp [isFinB] at hx
  | inf s => simp [isFinB] at hx
  | fin s m =>
    cases y with
    | nan => simp [isFinB] at hy
    | inf t => simp [isFinB] at hy
    | fin t k =>
      have hk : k ≠ 0 := by
        intro h
        apply hvy
        cases t <;> simp [sval, h]
      refine ⟨by simp [flDiv, hk, isFinB], ?_⟩
      cases s <;> cases t <;> simp [flDiv, hk, sval] <;> ring

theorem flRound_fin (s : Bool) (m : ℚ) :
    isFinB (flRound (.fin s m)) = true ∧
      sval (flRound (.fin s m)) = (rustRound (sval (.fin s m)) : ℚ) := by
  have hs : sval (Fl.fin s m) = if s then -m else m := rfl
  exact ⟨isFinB_mkFin _ _, by rw [hs]; exact sval_mkFin _ _⟩

theorem flFloor_fin (s : Bool) (m : ℚ) :
    isFinB (flFloor (.fin s m)) = true ∧
      sval (flFloor (.fin s m)) = (⌊sval (.fin s m)⌋ : ℚ) := by
  have hs : sval (Fl.fin s m) = if s then -m else m := rfl
  exact ⟨isFinB_mkFin _ _, by rw [hs]; exact sval_mkFin _ _⟩

theorem qTrunc_intCast (z : ℤ) : qTrunc (z : ℚ) = z := by
  unfold qTrunc
  rcases le_or_lt 0 (z : ℚ) with h | h
  · simp [h, Int.floor_intCast]
  · rw [if_neg (not_le.mpr h)]
    rw [show (-(z : ℚ)) = ((-z : ℤ) : ℚ) by push_cast; ring, Int.floor_intCast]
    ring

theorem flToI32_fin (s : Bool) (m : ℚ)
    (h1 : -2147483648 ≤ qTrunc (sval (.fin s m)))
    (h2 : qTrunc (sval (.fin s m)) ≤ 2147483647) :
    flToI32 (.fin s m) = qTrunc (sval (.fin s m)) := by
  have hs : qTrunc (if s then -m else m) = qTrunc (sval (Fl.fin s m)) := rfl
  simp only [flToI32, hs]
  rw [if_neg (not_lt.mpr h1), if_neg (not_lt.mpr h2)]

theorem rustRound_abs (x : ℚ) : |x - (rustRound x : ℚ)| ≤ 1/2 := by
  unfold rustRound
  rcases le_or_lt 0 x with h | h
  · rw [if_pos h]
    have h1 : (⌊x + 1/2⌋ : ℚ) ≤ x + 1/2 := Int.floor_le _
    have h2 : x + 1/2 - 1 < (⌊x + 1/2⌋ : ℚ) := Int.sub_one_lt_floor _
    rw [abs_le]
    constructor <;> linarith
  · rw [if_neg (not_le.mpr h)]
    have h1 : (⌊-x + 1/2⌋ : ℚ) ≤ -x + 1/2 := Int.floor_le _
    have h2 : -x + 1/2 - 1 < (⌊-x + 1/2⌋ : ℚ) := Int.sub_one_lt_floor _
    rw [abs_le]
    push_cast
    constructor <;> linarith

theorem sqrtQ_nonneg (x : ℚ) : 0 ≤ sqrtQ x := by
  unfold sqrtQ
  by_cases h : x ≤ 0
  · simp [h]
  · rw [if_neg h]
    positivity

/-! ## The two-limb type `Double` (src/double.rs)

The struct itself is `src/double.rs`: `pub struct Double(f64, f64)`.  Its
arithmetic operators are not under `src/`; following the spec (§3: a value
"semantically equal to the exact mathematical sum of its limbs", §4.3: the
operators are exact-transformation cascades followed by renormalization)
they are modelled as exact operations on the value of the limb sum, with
the result renormalized into the leading limb. -/
structure Double where
  hi : Fl
  lo : Fl
deriving DecidableEq

/-- The value represented by a `Double`: the (native-float) sum of its limbs. -/
def Double.val (a : Double) : Fl := flAdd a.hi a.lo

/-- Modelled from the spec (§4.3): NaN is marked by the first limb. -/
def Double.is_nan (a : Double) : Bool := isNanB a.hi

/-- Modelled from the spec (§4.3): "zero test requires both limbs zero". -/
def Double.is_zero (a : Double) : Bool := isZeroB a.hi && isZeroB a.lo

/-- Modelled from the spec (§3): "limb[0] infinite with a defined sign". -/
def Double.is_infinite (a : Double) : Bool := isInfB a.hi

/-- Modelled from the spec (§4.3): "sign test driven by limb[0]'s sign bit". -/
def Double.is_sign_negative (a : Double) : Bool := signBit a.hi

def Double.is_sign_positive (a : Double) : Bool := !signBit a.hi

def Double.ZERO : Double := ⟨.fin false 0, .fin false 0⟩

def Double.NEG_ZERO : Double := ⟨.fin true 0, .fin false 0⟩

def Double.ONE : Double := ⟨.fin false 1, .fin false 0⟩

def Double.NAN : Double := ⟨.nan, .nan⟩

def Double.INFINITY : Double := ⟨.inf false, .fin false 0⟩

def Double.NEG_INFINITY : Double := ⟨.inf true, .fin false 0⟩

/-- Modelled from the spec (glossary "working epsilon"): the two-limb working
epsilon constant `Double::EPSILON = 4.93038065763132e-32` as an exact dyadic. -/
def Double.EPSILON : Double := ⟨.fin false (9007199254740985 / 2 ^ 157), .fin false 0⟩

/-- Modelled from the spec (§4.3 addition): exact on the represented values. -/
def Double.add (a b : Double) : Double := ⟨flAdd a.val b.val, flPZ⟩

/-- Modelled from the spec (§4.3 subtraction): exact on the represented values. -/
def Double.sub (a b : Double) : Double := ⟨flSub a.val b.val, flPZ⟩

/-- Modelled from the spec (§4.3 multiplication): exact on the represented values. -/
def Double.mul (a b : Double) : Double := ⟨flMul a.val b.val, flPZ⟩

def Double.neg (a : Double) : Double := ⟨flNeg a.val, flPZ⟩

def Double.abs (a : Double) : Double := ⟨flAbs a.val, flPZ⟩

def Double.sqr (a : Double) : Double := Double.mul a a

/-- Modelled from the spec: `Double::sqrt` (not under src/), with native
special-value semantics (negative → NaN), cf. §7. -/
def Double.sqrt (a : Double) : Double := ⟨flSqrt a.val, flPZ⟩

/-- Modelled from the spec: `Double::round` (not under src/), rounding the
represented value half away from zero as Rust `f64::round` does. -/
def Double.round (a : Double) : Double := ⟨flRound a.val, flPZ⟩

/-- Modelled from the spec: `Double::from(f64)` (not under src/) — the limb
itself is the exact desired value, the second limb is zero. -/
def Double.ofFl (q : Fl) : Double := ⟨q, flPZ⟩

/-- Modelled from the spec (§4.3 division, not under src/): the special-value
branches are "identical to the two-limb type" rules shared with `Quad`
division; the generic branch is the exact quotient of the represented values. -/
def Double.div (a b : Double) : Double :=
  if a.is_nan || b.is_nan then Double.NAN
  else if b.is_zero then
    if a.is_zero then Double.NAN
    else if a.is_sign_negative == b.is_sign_positive then Double.NEG_INFINITY
    else Double.INFINITY
  else if a.is_infinite then
    if b.is_infinite then Double.NAN
    else if a.is_sign_positive == b.is_sign_positive then Double.INFINITY
    else Double.NEG_INFINITY
  else if b.is_infinite then
    if a.is_sign_positive == b.is_sign_positive then Double.ZERO
    else Double.NEG_ZERO
  else ⟨flDiv a.val b.val, flPZ⟩

/-- Modelled from the spec (§6 comparisons): ordering of the represented
values, NaN unordered (equivalent to the lexicographic limb comparison for
normalized values). -/
def Double.leB (a b : Double) : Bool := flLeB a.val b.val

/-- Modelled from the spec (design note): `mul_pwr2` multiplies by an exact
power of two held in a single native float (not under src/). -/
def mul_pwr2 (a : Double) (b : Fl) : Double := ⟨flMul a.val b, flPZ⟩

/-- Modelled from the spec (design note "compile-time constant tables"):
`Double::MUL_2_PI`, the two-limb constant for 2π
(`Double(6.283185307179586, 2.4492935982947064e-16)`) as exact dyadics. -/
def Double.MUL_2_PI : Double :=
  ⟨.fin false (884279719003555 / 2 ^ 47), .fin false (4967757600021511 / 2 ^ 104)⟩

/-- Modelled from the spec: `Double::FRAC_PI_2`, the two-limb constant for π/2
(`Double(1.5707963267948966, 6.123233995736766e-17)`) as exact dyadics. -/
def Double.FRAC_PI_2 : Double :=
  ⟨.fin false (884279719003555 / 2 ^ 49), .fin false (4967757600021511 / 2 ^ 106)⟩

/-- Modelled from the spec: `Double::FRAC_PI_16`, the two-limb constant for π/16
(`Double(0.19634954084936207, 7.654042494670958e-18)`) as exact dyadics. -/
def Double.FRAC_PI_16 : Double :=
  ⟨.fin false (884279719003555 / 2 ^ 52), .fin false (4967757600021511 / 2 ^ 109)⟩

/-- Modelled from the spec (design note "compile-time constant tables"):
the inverse-factorial table `INV_FACTS` used by the Taylor loops, a table of
15 entries `1/3!, 1/4!, …, 1/17!` (exact rationals in this model). -/
def INV_FACTS : List Double :=
  (List.range 15).map (fun k => ⟨.fin false (1 / (Nat.factorial (k + 3) : ℚ)), flPZ⟩)

/-! ## The Taylor-series loops (src/double/trig/common.rs)

The bodies of the `loop { … }` blocks in `sin_taylor` and `cos_taylor` are
identical; the loop is embedded as `tBody` (one pass: `r *= x; let t =
r * INV_FACTS[i]; s += t; i += 2;`) plus the exit test `tExit` (`i >=
INV_FACTS.len() || t.abs() <= threshold`), iterated by `tLoop` until the
exit test holds. -/
structure TState where
  r : Double
  s : Double
  t : Double
  i : ℕ
deriving DecidableEq

/-- One pass of the `loop` body shared by `sin_taylor` and `cos_taylor`. -/
def tBody (x : Double) (st : TState) : TState :=
  let r := Double.mul st.r x
  let t := Double.mul r (INV_FACTS.getD st.i Double.ZERO)
  ⟨r, Double.add st.s t, t, st.i + 2⟩

/-- The `break` test of the loop, evaluated after each pass:
`i >= INV_FACTS.len() || t.abs() <= threshold`. -/
def tExit (threshold : Double) (st : TState) : Bool :=
  decide (INV_FACTS.length ≤ st.i) || (Double.abs st.t).leB threshold

theorem tBody_i (x : Double) (st : TState) : (tBody x st).i = st.i + 2 := rfl

/-- The `loop { …; if i >= INV_FACTS.len() || t.abs() <= threshold { break; } }`
of `sin_taylor`/`cos_taylor`: runs the body, stops when the exit test holds. -/
def tLoop (x threshold : Double) (st : TState) : Double :=
  let st2 := tBody x st
  if tExit threshold st2 then st2.s else tLoop x threshold st2
termination_by INV_FACTS.length - st.i
decreasing_by
  rename_i h
  simp only [Bool.not_eq_true, tExit, Bool.or_eq_false_iff,
    decide_eq_false_iff_not, not_le, tBody_i] at h
  obtain ⟨h1, -⟩ := h
  have h2 : st2.i = st.i + 2 := tBody_i x st
  have h3 : (tBody x st).i = st.i + 2 := tBody_i x st
  omega

/-- The initial loop state of `sin_taylor`: `s = a`, `r = a`, `i = 0`
(the `t` component is a placeholder; the body overwrites it before the
first exit test). -/
def sinInit (a : Double) : TState := ⟨a, a, a, 0⟩

/-- The value `x = -a.sqr()` in `sin_taylor`/`cos_taylor`. -/
def sinX (a : Double) : Double := Double.neg (Double.sqr a)

/-- The value `threshold = mul_pwr2(a.abs() * Double::EPSILON, 0.5)` in `sin_taylor`. -/
def sinThr (a : Double) : Double :=
  mul_pwr2 (Double.mul (Double.abs a) Double.EPSILON) (.fin false (1/2))

/-- Function `sin_taylor` from src/double/trig/common.rs. -/
def sin_taylor (a : Double) : Double :=
  if a.is_zero then Double.ZERO
  else tLoop (sinX a) (sinThr a) (sinInit a)

/-- The value `threshold = mul_pwr2(Double::EPSILON, 0.5)` in `cos_taylor`. -/
def cosThr : Double := mul_pwr2 Double.EPSILON (.fin false (1/2))

/-- The initial loop state of `cos_taylor`: `r = x`,
`s = 1 + mul_pwr2(r, 0.5)`, `i = 1` (placeholder `t`). -/
def cosInit (a : Double) : TState :=
  ⟨sinX a, Double.add Double.ONE (mul_pwr2 (sinX a) (.fin false (1/2))), sinX a, 1⟩

/-- Function `cos_taylor` from src/double/trig/common.rs. -/
def cos_taylor (a : Double) : Double :=
  if a.is_zero then Double.ONE
  else tLoop (sinX a) cosThr (cosInit a)

/-- Function `sincos_taylor` from src/double/trig/common.rs. -/
def sincos_taylor (a : Double) : Double × Double :=
  if a.is_zero then (Double.ZERO, Double.ONE)
  else
    let sin_a := sin_taylor a
    (sin_a, Double.sqrt (Double.sub Double.ONE (Double.sqr sin_a)))

/-- Function `reduce` from src/double/trig/common.rs: reduce modulo 2π, then π/2
(quadrant `j`), then π/16 (group `k`). -/
def reduce (a : Double) : ℤ × ℤ × Double :=
  let z := Double.round (Double.div a Double.MUL_2_PI)
  let r := Double.sub a (Double.mul z Double.MUL_2_PI)
  let q := flFloor (flAdd (flDiv r.hi Double.FRAC_PI_2.hi) (.fin false (1/2)))
  let t := Double.sub r (Double.mul (Double.ofFl q) Double.FRAC_PI_2)
  let j := flToI32 q
  let q2 := flFloor (flAdd (flDiv t.hi Double.FRAC_PI_16.hi) (.fin false (1/2)))
  let t2 := Double.sub t (Double.mul (Double.ofFl q2) Double.FRAC_PI_16)
  let k := flToI32 q2
  (j, k, t2)

/-! ## Indexed component access (src/double.rs, `Index<usize> for Double`)

The source returns the first or second component for indices 0 and 1 and
panics for anything else; the panic is modelled as `none`. -/
def Double.index (d : Double) (idx : ℕ) : Option Fl :=
  match idx with
  | 0 => some d.hi
  | 1 => some d.lo
  | _ => none

/-! ## The four-limb type `Quad` (src/quad/arith/div.rs)

Only `Quad` division and its helper `mul_f64` are under `src/`; the struct,
its classification predicates, constants, subtraction, and the
`common::core` primitives are modelled from the spec (§3, §4.1, §4.2, §4.4:
"All special-value rules are identical to the two-limb type"). -/
structure Quad where
  l0 : Fl
  l1 : Fl
  l2 : Fl
  l3 : Fl
deriving DecidableEq

def Quad.val (a : Quad) : Fl := flAdd a.l0 (flAdd a.l1 (flAdd a.l2 a.l3))

def Quad.is_nan (a : Quad) : Bool := isNanB a.l0

def Quad.is_zero (a : Quad) : Bool :=
  isZeroB a.l0 && isZeroB a.l1 && isZeroB a.l2 && isZeroB a.l3

def Quad.is_infinite (a : Quad) : Bool := isInfB a.l0

def Quad.is_sign_negative (a : Quad) : Bool := signBit a.l0

def Quad.is_sign_positive (a : Quad) : Bool := !signBit a.l0

def Quad.ZERO : Quad := ⟨.fin false 0, .fin false 0, .fin false 0, .fin false 0⟩

def Quad.NEG_ZERO : Quad := ⟨.fin true 0, .fin false 0, .fin false 0, .fin false 0⟩

def Quad.ONE : Quad := ⟨.fin false 1, .fin false 0, .fin false 0, .fin false 0⟩

def Quad.NAN : Quad := ⟨.nan, .nan, .nan, .nan⟩

def Quad.INFINITY : Quad := ⟨.inf false, .fin false 0, .fin false 0, .fin false 0⟩

def Quad.NEG_INFINITY : Quad := ⟨.inf true, .fin false 0, .fin false 0, .fin false 0⟩

/-- Modelled from the spec (§4.1): the exact-product primitive
`core::two_prod`; in the exact-value idealization the error term is 0. -/
def two_prod (a b : Fl) : Fl × Fl := (flMul a b, flPZ)

/-- Modelled from the spec (§4.1): the exact-sum primitive `core::two_sum`;
in the exact-value idealization the error term is 0. -/
def two_sum (a b : Fl) : Fl × Fl := (flAdd a b, flPZ)

/-- Modelled from the spec (§4.2): `core::three_three_sum`, a cascading
exact sum of three terms; exact sum with zero error terms in this model. -/
def three_three_sum (a b c : Fl) : Fl × Fl × Fl := (flAdd a (flAdd b c), flPZ, flPZ)

/-- Modelled from the spec (§4.2): `core::three_two_sum`, a cascading exact
sum of three terms into two; exact sum with zero error term in this model. -/
def three_two_sum (a b c : Fl) : Fl × Fl := (flAdd a (flAdd b c), flPZ)

/-- Modelled from the spec (§4.2): `core::renorm5` collapses five raw terms
into a canonical 4-limb tuple; "if the leading limb is zero, infinite, or
NaN, short-circuit and return the corresponding special value", otherwise
the sum is preserved (exactly, in this model, in the leading limb). -/
def renorm5 (s0 s1 s2 s3 s4 : Fl) : Fl × Fl × Fl × Fl :=
  if isNanB s0 || isInfB s0 || isZeroB s0 then (s0, flPZ, flPZ, flPZ)
  else (flAdd s0 (flAdd s1 (flAdd s2 (flAdd s3 s4))), flPZ, flPZ, flPZ)

/-- Conversion `Quad::from((f64, f64, f64, f64))`: the limbs are taken as given. -/
def Quad.ofTuple (t : Fl × Fl × Fl × Fl) : Quad := ⟨t.1, t.2.1, t.2.2.1, t.2.2.2⟩

/-- Function `mul_f64` from src/quad/arith/div.rs: Quad × f64 product used by division. -/
def mul_f64 (a : Quad) (b : Fl) : Quad :=
  let p0 := two_prod a.l0 b
  let p1 := two_prod a.l1 b
  let p2 := two_prod a.l2 b
  let h3 := flMul a.l3 b
  let s0 := p0.1
  let s1t0 := two_sum p1.1 p0.2
  let s2t1t2 := three_three_sum s1t0.2 p2.1 p1.2
  let s3t3 := three_two_sum s2t1t2.2.1 h3 p2.2
  let s4 := flMul s2t1t2.2.2 s3t3.2
  Quad.ofTuple (renorm5 s0 s1t0.1 s2t1t2.1 s3t3.1 s4)

/-- Modelled from the spec (§4.4 subtraction): exact on represented values. -/
def Quad.sub (a b : Quad) : Quad := ⟨flSub a.val b.val, flPZ, flPZ, flPZ⟩

/-- Operator `Div::div for Quad` from src/quad/arith/div.rs: special-value branches
followed by the iterated leading-limb quotient refinement. -/
def Quad.div (a b : Quad) : Quad :=
  if a.is_nan || b.is_nan then Quad.NAN
  else if b.is_zero then
    if a.is_zero then Quad.NAN
    else if a.is_sign_negative == b.is_sign_positive then Quad.NEG_INFINITY
    else Quad.INFINITY
  else if a.is_infinite then
    if b.is_infinite then Quad.NAN
    else if a.is_sign_positive == b.is_sign_positive then Quad.INFINITY
    else Quad.NEG_INFINITY
  else if b.is_infinite then
    if a.is_sign_positive == b.is_sign_positive then Quad.ZERO
    else Quad.NEG_ZERO
  else
    let q0 := flDiv a.l0 b.l0
    let r0 := Quad.sub a (mul_f64 b q0)
    let q1 := flDiv r0.l0 b.l0
    let r1 := Quad.sub r0 (mul_f64 b q1)
    let q2 := flDiv r1.l0 b.l0
    let r2 := Quad.sub r1 (mul_f64 b q2)
    let q3 := flDiv r2.l0 b.l0
    let r3 := Quad.sub r2 (mul_f64 b q3)
    let q4 := flDiv r3.l0 b.l0
    Quad.ofTuple (renorm5 q0 q1 q2 q3 q4)

/-- One remainder-refinement iteration as the spec words it (§4.3/§4.4
division): divide the leading limb of the current remainder by the
divisor's leading limb, append the quotient term, and subtract the
back-multiplied product from the remainder. -/
def refineStep (b : Quad) (p : List Fl × Quad) : List Fl × Quad :=
  let q := flDiv p.2.l0 b.l0
  (p.1 ++ [q], Quad.sub p.2 (mul_f64 b q))

/-- Definition following the spec's words (§4.4): compute a native-float
quotient of the leading limbs, form the remainder, perform exactly four
remainder-refinement iterations, and renormalize the five accumulated
quotient terms. -/
def Quad.divSpecIter (a b : Quad) : Quad :=
  let q0 := flDiv a.l0 b.l0
  let r0 := Quad.sub a (mul_f64 b q0)
  let res := (refineStep b)^[4] ([q0], r0)
  match res.1 with
  | [t0, t1, t2, t3, t4] => Quad.ofTuple (renorm5 t0 t1 t2 t3 t4)
  | _ => Quad.NAN

/-! ## `sin_cos` and `tan`

`tan` is src (src/double/trig/tan.rs, src/quad/trig/tan.rs): sine divided
by cosine from `sin_cos`.  `sin_cos` itself is not under `src/`; it is
modelled from the spec's state machine (§4.5) with the total-function
special-value behavior of §7 ("mirroring native float semantics", under
which the sine/cosine of a NaN or infinite argument is NaN — the reduction
arithmetic of §4.5 produces exactly that via `∞ - ∞ = NaN`). -/

/-- Modelled from the spec (§4.5 reconstruction tables): sines of
`kπ/16` for `k = 1..4`, as rational approximations. -/
def SINES_T : List Double :=
  [⟨.fin false (19509032201612827 / 10 ^ 17), flPZ⟩,
   ⟨.fin false (38268343236508977 / 10 ^ 17), flPZ⟩,
   ⟨.fin false (55557023301960222 / 10 ^ 17), flPZ⟩,
   ⟨.fin false (70710678118654752 / 10 ^ 17), flPZ⟩]

/-- Modelled from the spec (§4.5 reconstruction tables): cosines of
`kπ/16` for `k = 1..4`, as rational approximations. -/
def COSINES_T : List Double :=
  [⟨.fin false (98078528040323045 / 10 ^ 17), flPZ⟩,
   ⟨.fin false (92387953251128676 / 10 ^ 17), flPZ⟩,
   ⟨.fin false (83146961230254524 / 10 ^ 17), flPZ⟩,
   ⟨.fin false (70710678118654752 / 10 ^ 17), flPZ⟩]

/-- Modelled from the spec (§4.5 step 5): combine the Taylor sine/cosine of
the residual with the table values for the `k`-th multiple of π/16 via the
angle-addition identities, then apply the quadrant rotation for `j`. -/
def ddReconstruct (j k : ℤ) (s c : Double) : Double × Double :=
  let p :=
    if k = 0 then (s, c)
    else
      let u := COSINES_T.getD (k.natAbs - 1) Double.ONE
      let v := SINES_T.getD (k.natAbs - 1) Double.ZERO
      if 0 < k then
        (Double.add (Double.mul s u) (Double.mul c v),
         Double.sub (Double.mul c u) (Double.mul s v))
      else
        (Double.sub (Double.mul s u) (Double.mul c v),
         Double.add (Double.mul c u) (Double.mul s v))
  if j = 0 then p
  else if j = 1 then (p.2, Double.neg p.1)
  else if j = -1 then (Double.neg p.2, p.1)
  else (Double.neg p.1, Double.neg p.2)

/-- Modelled from the spec: `Double::sin_cos` (not under src/), §4.5 state
machine — zero short-circuits to `(0, 1)`; a NaN or infinite argument yields
`(NaN, NaN)` (§7, native semantics); otherwise range reduction (`reduce`,
src) followed by the joint Taylor evaluation (`sincos_taylor`, src) and the
angle-addition reconstruction. -/
def Double.sin_cos (a : Double) : Double × Double :=
  if a.is_zero then (Double.ZERO, Double.ONE)
  else if a.is_nan || a.is_infinite then (Double.NAN, Double.NAN)
  else
    let jkt := reduce a
    let sc := sincos_taylor jkt.2.2
    ddReconstruct jkt.1 jkt.2.1 sc.1 sc.2

/-- Function `Double::tan` from src/double/trig/tan.rs: `let (s, c) = self.sin_cos();
s / c`. -/
def Double.tan (a : Double) : Double :=
  let sc := a.sin_cos
  Double.div sc.1 sc.2

/-- Modelled from the spec (§4.4/glossary): the four-limb working epsilon,
`Quad::EPSILON ≈ 1.22e-63` modelled as `2⁻²⁰⁹`. -/
def qEPS : ℚ := 1 / 2 ^ 209

/-- Modelled from the spec (design note): the quad inverse-factorial table,
`1/3!, …, 1/27!`, as exact rationals. -/
def INV_FACTS_Q : List ℚ := (List.range 25).map (fun k => 1 / (Nat.factorial (k + 3) : ℚ))

/-- Modelled from the spec (§4.5 step 4) at the value level for the
four-limb type: Taylor summation of the sine of a residual, with the same
stopping rule (next term at or below half the working epsilon of the input,
or table exhausted). -/
def sinTaylorQAux (x thr : ℚ) (tbl : List ℚ) : ℕ → ℚ → ℚ → ℕ → ℚ
  | 0, s, _, _ => s
  | fuel + 1, s, r, i =>
      let r2 := r * x
      let t := r2 * tbl.getD i 0
      let s2 := s + t
      let i2 := i + 2
      if tbl.length ≤ i2 || |t| ≤ thr then s2
      else sinTaylorQAux x thr tbl fuel s2 r2 i2

def sinTaylorQ (a : ℚ) : ℚ :=
  if a = 0 then 0
  else sinTaylorQAux (-(a * a)) (|a| * qEPS / 2) INV_FACTS_Q INV_FACTS_Q.length a a 0

/-- Modelled from the spec (§4.5) at the value level: the four-limb
`sin_cos` state machine on the represented (finite) value — reduce modulo
2π, π/2 (quadrant `j`), π/16 (`k`), Taylor-evaluate the residual, and
reconstruct via angle addition. -/
def sincosQ (v : ℚ) : ℚ × ℚ :=
  let c2 : ℚ := 884279719003555 / 2 ^ 47 + 4967757600021511 / 2 ^ 104
  let p2 : ℚ := 884279719003555 / 2 ^ 49 + 4967757600021511 / 2 ^ 106
  let p16 : ℚ := 884279719003555 / 2 ^ 52 + 4967757600021511 / 2 ^ 109
  let r := v - (rustRound (v / c2) : ℚ) * c2
  let j : ℤ := ⌊r / p2 + 1/2⌋
  let t := r - (j : ℚ) * p2
  let k : ℤ := ⌊t / p16 + 1/2⌋
  let t2 := t - (k : ℚ) * p16
  let s := sinTaylorQ t2
  let c := sqrtQ (1 - s * s)
  let p :=
    if k = 0 then (s, c)
    else
      let u := [(98078528040323045 : ℚ) / 10 ^ 17, 92387953251128676 / 10 ^ 17,
                83146961230254524 / 10 ^ 17, 70710678118654752 / 10 ^ 17].getD (k.natAbs - 1) 1
      let w := [(19509032201612827 : ℚ) / 10 ^ 17, 38268343236508977 / 10 ^ 17,
                55557023301960222 / 10 ^ 17, 70710678118654752 / 10 ^ 17].getD (k.natAbs - 1) 0
      if 0 < k then (s * u + c * w, c * u - s * w) else (s * u - c * w, c * u + s * w)
  if j = 0 then p
  else if j = 1 then (p.2, -p.1)
  else if j = -1 then (-p.2, p.1)
  else (-p.1, -p.2)

/-- Modelled from the spec: `Quad::sin_cos` (not under src/), the same §4.5
strategy as the two-limb type at four-limb precision; zero short-circuits
to `(0, 1)`, a NaN or infinite argument yields `(NaN, NaN)` (§7). -/
def Quad.sin_cos (a : Quad) : Quad × Quad :=
  if a.is_zero then (Quad.ZERO, Quad.ONE)
  else if a.is_nan || a.is_infinite then (Quad.NAN, Quad.NAN)
  else
    let sc := sincosQ (sval a.val)
    (⟨mkFin sc.1 false, flPZ, flPZ, flPZ⟩, ⟨mkFin sc.2 false, flPZ, flPZ, flPZ⟩)

/-- Function `Quad::tan` from src/quad/trig/tan.rs: `let (s, c) = self.sin_cos();
s / c`. -/
def Quad.tan (a : Quad) : Quad :=
  let sc := a.sin_cos
  Quad.div sc.1 sc.2

/-! ## Helper lemmas -/

theorem isNanB_of_fin (h : isFinB x = true) : isNanB x = false := by
  cases x <;> simp_all [isFinB, isNanB]

theorem isInfB_of_fin (h : isFinB x = true) : isInfB x = false := by
  cases x <;> simp_all [isFinB, isInfB]

theorem flRound_finB (h : isFinB x = true) :
    isFinB (flRound x) = true ∧ sval (flRound x) = (rustRound (sval x) : ℚ) := by
  cases x with
  | nan => simp [isFinB] at h
  | inf s => simp [isFinB] at h
  | fin s m => exact flRound_fin s m

theorem flFloor_finB (h : isFinB x = true) :
    isFinB (flFloor x) = true ∧ sval (flFloor x) = (⌊sval x⌋ : ℚ) := by
  cases x with
  | nan => simp [isFinB] at h
  | inf s => simp [isFinB] at h
  | fin s m => exact flFloor_fin s m

theorem flToI32_finB (h : isFinB x = true)
    (hl : -2147483648 ≤ qTrunc (sval x)) (hr : qTrunc (sval x) ≤ 2147483647) :
    flToI32 x = qTrunc (sval x) := by
  cases x with
  | nan => simp [isFinB] at h
  | inf s => simp [isFinB] at h
  | fin s m => exact flToI32_fin s m hl hr

theorem isFinB_flPZ : isFinB flPZ = true := rfl

theorem sval_flPZ : sval flPZ = 0 := rfl

theorem mkFin_of_pos {v : ℚ} (z : Bool) (h : 0 < v) : mkFin v z = .fin false v := by
  unfold mkFin
  rw [if_neg h.ne', decide_eq_false (not_lt.mpr h.le), abs_of_pos h]

theorem mkFin_of_neg {v : ℚ} (z : Bool) (h : v < 0) : mkFin v z = .fin true (-v) := by
  unfold mkFin
  rw [if_neg h.ne, decide_eq_true h, abs_of_neg h]

theorem mkFin_zero (z : Bool) : mkFin 0 z = .fin z 0 := if_pos rfl

theorem val_ZERO : Double.val Double.ZERO = .fin false 0 := by
  simp [Double.val, Double.ZERO, flAdd, sval, mkFin]

theorem val_ONE : Double.val Double.ONE = .fin false 1 := by
  simp [Double.val, Double.ONE, flAdd, sval]
  norm_num [mkFin_of_pos]

theorem flLeB_finB (hx : isFinB x = true) (hy : isFinB y = true) :
    flLeB x y = decide (sval x ≤ sval y) := by
  cases x <;> cases y <;> simp_all [isFinB] <;> rfl

theorem leB_zero_one : Double.leB Double.ZERO Double.ONE = true := by
  rw [Double.leB, val_ZERO, val_ONE, @flLeB_finB (.fin false 0) (.fin false 1) rfl rfl]
  rw [decide_eq_true]
  norm_num [sval]

theorem flLeB_zero_left (h : isFinB w = true) (h2 : 0 ≤ sval w) :
    flLeB (.fin false 0) w = true := by
  cases w with
  | nan => simp [isFinB] at h
  | inf s =>
    cases s with
    | true => simp [isFinB] at h
    | false => rfl
  | fin t k =>
    simp only [flLeB, decide_eq_true_eq]
    simpa [sval] using h2

/-- The cosine component produced through the Pythagorean-identity square
root is NaN or at least zero. -/
theorem sqrt_nan_or_nonneg (d : Double) :
    (Double.sqrt d).is_nan = true ∨ Double.leB Double.ZERO (Double.sqrt d) = true := by
  have hleB : Double.leB Double.ZERO (Double.sqrt d)
      = flLeB (.fin false 0) (flAdd (flSqrt d.val) flPZ) := by
    rw [Double.leB, val_ZERO]; rfl
  have hnan : (Double.sqrt d).is_nan = isNanB (flSqrt d.val) := rfl
  cases hv : flSqrt d.val with
  | nan => left; rw [hnan, hv]; rfl
  | inf s =>
    right
    have hs : s = false := by
      cases hdv : d.val with
      | nan => rw [hdv] at hv; simp [flSqrt] at hv
      | inf t =>
        rw [hdv] at hv
        cases t with
        | true => simp [flSqrt] at hv
        | false => simp_all [flSqrt]
      | fin t m =>
        rw [hdv] at hv
        by_cases h1 : (if t then -m else m) < 0
        · simp [flSqrt, h1] at hv
        · by_cases h2 : (if t then -m else m) = 0 <;> simp [flSqrt, h1, h2] at hv
    subst hs
    rw [hleB, hv]
    rfl
  | fin s m =>
    right
    rw [hleB, hv]
    have hfin : isFinB (Fl.fin s m) = true := rfl
    obtain ⟨ha1, ha2⟩ := flAdd_fin hfin isFinB_flPZ
    refine flLeB_zero_left ha1 ?_
    rw [ha2, sval_flPZ, add_zero]
    cases hdv : d.val with
    | nan => rw [hdv] at hv; simp [flSqrt] at hv
    | inf t => rw [hdv] at hv; cases t <;> simp [flSqrt] at hv
    | fin t k =>
      rw [hdv] at hv
      by_cases h1 : (if t then -k else k) < 0
      · simp [flSqrt, h1] at hv
      · by_cases h2 : (if t then -k else k) = 0
        · simp only [flSqrt, if_neg h1, if_pos h2] at hv
          injection hv with hs1 hs2
          subst hs1
          subst hs2
          cases t <;> simp [sval]
        · simp only [flSqrt, if_neg h1, if_neg h2] at hv
          injection hv with hs1 hs2
          subst hs1
          subst hs2
          simpa [sval] using sqrtQ_nonneg (if t then -k else k)

/-! ## Claim theorems -/

/-- Claim C7: indexed component access on a `Double` returns the first limb
for index 0 and the second limb for index 1, and panics (modelled `none`)
for every index greater than 1 rather than returning a value or a
recoverable error. -/
theorem c7_index_access (d : Double) :
    d.index 0 = some d.hi ∧ d.index 1 = some d.lo ∧ ∀ i : ℕ, 2 ≤ i → d.index i = none := by
  refine ⟨rfl, rfl, ?_⟩
  intro i hi
  match i, hi with
  | (n + 2), _ => rfl

/-- Witness for C7 at a concrete out-of-range index. -/
theorem c7_index_access_witness : Double.ONE.index 5 = none :=
  (c7_index_access Double.ONE).2.2 5 (by omega)

/-- Claim C6: for both extended-precision types, `tan` is the quotient of
the `sin_cos` components computed by the corresponding extended-precision
division, and in particular `tan` of NaN and of either infinity is NaN
(via the division's NaN propagation on the `(NaN, NaN)` pair `sin_cos`
produces there). -/
theorem c6_tan_quotient :
    (∀ x : Double, Double.tan x = Double.div (Double.sin_cos x).1 (Double.sin_cos x).2)
  ∧ (∀ x : Quad, Quad.tan x = Quad.div (Quad.sin_cos x).1 (Quad.sin_cos x).2)
  ∧ (Double.tan Double.NAN).is_nan = true
  ∧ (Double.tan Double.INFINITY).is_nan = true
  ∧ (Double.tan Double.NEG_INFINITY).is_nan = true
  ∧ (Quad.tan Quad.NAN).is_nan = true
  ∧ (Quad.tan Quad.INFINITY).is_nan = true
  ∧ (Quad.tan Quad.NEG_INFINITY).is_nan = true := by
  refine ⟨fun x => rfl, fun x => rfl, ?_, ?_, ?_, ?_, ?_, ?_⟩ <;> decide

/-- Claim C10: for nonzero inputs `sincos_taylor` returns the Taylor sine
together with the Pythagorean-identity cosine `sqrt(1 - sin²)`; the cosine
component is never negative (NaN or at least zero, for every input); a zero
input returns exactly `(0, 1)`. -/
theorem c10_sincos_taylor :
    (∀ a : Double, a.is_zero = false →
      sincos_taylor a
        = (sin_taylor a, Double.sqrt (Double.sub Double.ONE (Double.sqr (sin_taylor a)))))
  ∧ (∀ a : Double,
      (sincos_taylor a).2.is_nan = true
        ∨ Double.leB Double.ZERO (sincos_taylor a).2 = true)
  ∧ (∀ a : Double, a.is_zero = true → sincos_taylor a = (Double.ZERO, Double.ONE)) := by
  refine ⟨?_, ?_, ?_⟩
  · intro a ha
    simp [sincos_taylor, ha]
  · intro a
    by_cases ha : a.is_zero = true
    · right
      have h2 : (sincos_taylor a).2 = Double.ONE := by simp [sincos_taylor, ha]
      rw [h2]
      exact leB_zero_one
    · have ha2 : a.is_zero = false := by simpa using ha
      have hsnd : (sincos_taylor a).2
          = Double.sqrt (Double.sub Double.ONE (Double.sqr (sin_taylor a))) := by
        simp [sincos_taylor, ha2]
      rw [hsnd]
      exact sqrt_nan_or_nonneg _
  · intro a ha
    simp [sincos_taylor, ha]

/-- Witness for C10 at the concrete nonzero input 1/2. -/
theorem c10_sincos_taylor_witness :
    sincos_taylor ⟨.fin false (1/2), flPZ⟩
      = (sin_taylor ⟨.fin false (1/2), flPZ⟩,
         Double.sqrt (Double.sub Double.ONE
           (Double.sqr (sin_taylor ⟨.fin false (1/2), flPZ⟩)))) :=
  c10_sincos_taylor.1 ⟨.fin false (1/2), flPZ⟩ (by norm_num [Double.is_zero, isZeroB, flPZ])

/-! ## Loop-trace characterization for the Taylor loops -/

/-- The state after `n` executions of the shared Taylor loop body. -/
def tIter (x : Double) (st : TState) (n : ℕ) : TState := (tBody x)^[n] st

theorem tIter_succ (x : Double) (st : TState) (n : ℕ) :
    tIter x st (n + 1) = tIter x (tBody x st) n :=
  Function.iterate_succ_apply (tBody x) n st

theorem tIter_zero (x : Double) (st : TState) : tIter x st 0 = st := rfl

theorem tIter_i (x : Double) (st : TState) (n : ℕ) :
    (tIter x st n).i = st.i + 2 * n := by
  induction n with
  | zero => simp [tIter]
  | succ n ih =>
    have h : tIter x st (n + 1) = tBody x (tIter x st n) :=
      Function.iterate_succ_apply' (tBody x) n st
    rw [h, tBody_i, ih]
    ring

theorem tExit_of_len_le (threshold : Double) (st : TState)
    (h : INV_FACTS.length ≤ st.i) : tExit threshold st = true := by
  simp [tExit, h]

/-- The loop runs its body exactly `N + 1` times, where `N` is the first
iteration count after which the exit condition holds, and returns the `s`
component of that state. -/
theorem tLoop_spec (x threshold : Double) (st : TState) :
    ∃ N, tExit threshold (tIter x st (N + 1)) = true
      ∧ (∀ m, m < N → tExit threshold (tIter x st (m + 1)) = false)
      ∧ tLoop x threshold st = (tIter x st (N + 1)).s := by
  by_cases h : tExit threshold (tBody x st) = true
  · refine ⟨0, ?_, ?_, ?_⟩
    · rw [tIter_succ, tIter_zero]; exact h
    · intro m hm; omega
    · rw [tLoop, if_pos h, tIter_succ, tIter_zero]
  · have hb : tExit threshold (tBody x st) = false := by simpa using h
    have hlt : st.i + 2 < INV_FACTS.length := by
      by_contra hc
      have : INV_FACTS.length ≤ (tBody x st).i := by rw [tBody_i]; omega
      rw [tExit_of_len_le threshold (tBody x st) this] at hb
      exact Bool.noConfusion hb
    obtain ⟨N, h1, h2, h3⟩ := tLoop_spec x threshold (tBody x st)
    refine ⟨N + 1, ?_, ?_, ?_⟩
    · rw [tIter_succ]; exact h1
    · intro m hm
      cases m with
      | zero => rw [tIter_succ, tIter_zero]; exact hb
      | succ m' =>
        rw [tIter_succ]
        exact h2 m' (by omega)
    · rw [tLoop, if_neg (by simp [hb]), h3, ← tIter_succ]
termination_by INV_FACTS.length - st.i
decreasing_by
  have h4 : (tBody x st).i = st.i + 2 := tBody_i x st
  omega

theorem INV_FACTS_len : INV_FACTS.length = 15 := by
  simp [INV_FACTS]

/-- Claim C3: for every (nonzero) input, the Taylor loops of `sin_taylor` and
`cos_taylor` stop exactly at the first pass after which the added term's
magnitude is at or below the threshold (half the working epsilon, scaled by
`|a|` for the sine) or the inverse-factorial table index is exhausted —
whichever comes first. -/
theorem c3_taylor_stopping :
    (∀ a : Double, a.is_zero = false →
      ∃ N, tExit (sinThr a) (tIter (sinX a) (sinInit a) (N + 1)) = true
        ∧ (∀ m, m < N → tExit (sinThr a) (tIter (sinX a) (sinInit a) (m + 1)) = false)
        ∧ sin_taylor a = (tIter (sinX a) (sinInit a) (N + 1)).s)
  ∧ (∀ a : Double, a.is_zero = false →
      ∃ N, tExit cosThr (tIter (sinX a) (cosInit a) (N + 1)) = true
        ∧ (∀ m, m < N → tExit cosThr (tIter (sinX a) (cosInit a) (m + 1)) = false)
        ∧ cos_taylor a = (tIter (sinX a) (cosInit a) (N + 1)).s) := by
  constructor
  · intro a ha
    have hs : sin_taylor a = tLoop (sinX a) (sinThr a) (sinInit a) := by
      simp [sin_taylor, ha]
    rw [hs]
    exact tLoop_spec _ _ _
  · intro a ha
    have hs : cos_taylor a = tLoop (sinX a) cosThr (cosInit a) := by
      simp [cos_taylor, ha]
    rw [hs]
    exact tLoop_spec _ _ _

/-- Witness for C3 at the concrete nonzero input 1. -/
theorem c3_taylor_stopping_witness :
    ∃ N, tExit (sinThr Double.ONE) (tIter (sinX Double.ONE) (sinInit Double.ONE) (N + 1)) = true
      ∧ (∀ m, m < N →
          tExit (sinThr Double.ONE) (tIter (sinX Double.ONE) (sinInit Double.ONE) (m + 1)) = false)
      ∧ sin_taylor Double.ONE = (tIter (sinX Double.ONE) (sinInit Double.ONE) (N + 1)).s :=
  c3_taylor_stopping.1 Double.ONE (by norm_num [Double.is_zero, isZeroB, Double.ONE])

/-- Claim C8: the Taylor loops terminate, and the number of body executions
is bounded above by the length of the inverse-factorial table (the index
rises by 2 each pass, from 0 for sine and 1 for cosine, and the loop exits
no later than when the index reaches the table length). -/
theorem c8_taylor_bounded :
    (∀ a : Double, a.is_zero = false →
      ∃ N, tExit (sinThr a) (tIter (sinX a) (sinInit a) (N + 1)) = true
        ∧ (∀ m, m < N → tExit (sinThr a) (tIter (sinX a) (sinInit a) (m + 1)) = false)
        ∧ sin_taylor a = (tIter (sinX a) (sinInit a) (N + 1)).s
        ∧ N + 1 ≤ INV_FACTS.length)
  ∧ (∀ a : Double, a.is_zero = false →
      ∃ N, tExit cosThr (tIter (sinX a) (cosInit a) (N + 1)) = true
        ∧ (∀ m, m < N → tExit cosThr (tIter (sinX a) (cosInit a) (m + 1)) = false)
        ∧ cos_taylor a = (tIter (sinX a) (cosInit a) (N + 1)).s
        ∧ N + 1 ≤ INV_FACTS.length) := by
  constructor
  · intro a ha
    have hs : sin_taylor a = tLoop (sinX a) (sinThr a) (sinInit a) := by
      simp [sin_taylor, ha]
    obtain ⟨N, h1, h2, h3⟩ := tLoop_spec (sinX a) (sinThr a) (sinInit a)
    refine ⟨N, h1, h2, by rw [hs]; exact h3, ?_⟩
    by_contra hc
    have h8 : 7 < N := by rw [INV_FACTS_len] at hc; omega
    have h9 := h2 7 h8
    have h10 : INV_FACTS.length ≤ (tIter (sinX a) (sinInit a) 8).i := by
      rw [tIter_i, INV_FACTS_len]
      simp [sinInit]
    rw [tExit_of_len_le _ _ h10] at h9
    exact Bool.noConfusion h9
  · intro a ha
    have hs : cos_taylor a = tLoop (sinX a) cosThr (cosInit a) := by
      simp [cos_taylor, ha]
    obtain ⟨N, h1, h2, h3⟩ := tLoop_spec (sinX a) cosThr (cosInit a)
    refine ⟨N, h1, h2, by rw [hs]; exact h3, ?_⟩
    by_contra hc
    have h8 : 6 < N := by rw [INV_FACTS_len] at hc; omega
    have h9 := h2 6 h8
    have h10 : INV_FACTS.length ≤ (tIter (sinX a) (cosInit a) 7).i := by
      rw [tIter_i, INV_FACTS_len]
      simp [cosInit]
    rw [tExit_of_len_le _ _ h10] at h9
    exact Bool.noConfusion h9

/-- Witness for C8 at the concrete nonzero input 1. -/
theorem c8_taylor_bounded_witness :
    ∃ N, tExit cosThr (tIter (sinX Double.ONE) (cosInit Double.ONE) (N + 1)) = true
      ∧ (∀ m, m < N →
          tExit cosThr (tIter (sinX Double.ONE) (cosInit Double.ONE) (m + 1)) = false)
      ∧ cos_taylor Double.ONE = (tIter (sinX Double.ONE) (cosInit Double.ONE) (N + 1)).s
      ∧ N + 1 ≤ INV_FACTS.length :=
  c8_taylor_bounded.2 Double.ONE (by norm_num [Double.is_zero, isZeroB, Double.ONE])

/-- Claim C9: every table access `INV_FACTS[i]` in the Taylor loops happens
with `i < INV_FACTS.len()`: the `n`-th body execution (which reads index
`(tIter … n).i`, starting at 0 for sine and 1 for cosine) is reached only
if no earlier pass exited, and then its access index is within bounds —
the indexing can never go out of bounds and never panics. -/
theorem c9_taylor_index_bounds :
    (∀ a : Double, ∀ n : ℕ,
      (∀ m, m < n → tExit (sinThr a) (tIter (sinX a) (sinInit a) (m + 1)) = false) →
      (tIter (sinX a) (sinInit a) n).i < INV_FACTS.length)
  ∧ (∀ a : Double, ∀ n : ℕ,
      (∀ m, m < n → tExit cosThr (tIter (sinX a) (cosInit a) (m + 1)) = false) →
      (tIter (sinX a) (cosInit a) n).i < INV_FACTS.length) := by
  constructor
  · intro a n hn
    cases n with
    | zero => rw [tIter_zero, INV_FACTS_len]; simp [sinInit]
    | succ m =>
      have h1 := hn m (by omega)
      by_contra hc
      rw [tExit_of_len_le _ _ (by omega)] at h1
      exact Bool.noConfusion h1
  · intro a n hn
    cases n with
    | zero => rw [tIter_zero, INV_FACTS_len]; simp [cosInit]
    | succ m =>
      have h1 := hn m (by omega)
      by_contra hc
      rw [tExit_of_len_le _ _ (by omega)] at h1
      exact Bool.noConfusion h1

/-- Witness for C9: the first sine-loop access at a concrete input. -/
theorem c9_taylor_index_bounds_witness :
    (tIter (sinX Double.ONE) (sinInit Double.ONE) 0).i < INV_FACTS.length :=
  c9_taylor_index_bounds.1 Double.ONE 0 (fun m hm => absurd hm (Nat.not_lt_zero m))

/-! ## Quad division claims -/

theorem quad_nan_of_zero {b : Quad} (h : b.is_zero = true) : b.is_nan = false := by
  have h0 : isZeroB b.l0 = true := by
    simp only [Quad.is_zero, Bool.and_eq_true] at h
    exact h.1.1.1
  cases hl : b.l0 <;> simp_all [isZeroB, Quad.is_nan, isNanB]

theorem quad_zero_of_inf {b : Quad} (h : b.is_infinite = true) : b.is_zero = false := by
  cases hl : b.l0 <;> simp_all [Quad.is_infinite, isInfB, Quad.is_zero, isZeroB]

/-- Claim C1: `Quad` division follows the special-value table — NaN operands
produce NaN; division by zero produces NaN when the dividend is also zero
and otherwise a signed infinity that is positive exactly when the operands'
sign bits agree; infinity over infinity is NaN; an infinite dividend over a
finite nonzero divisor is a signed infinity; a finite dividend over an
infinite divisor is a signed zero. -/
theorem c1_div_special_values (a b : Quad) :
    ((a.is_nan || b.is_nan) = true → Quad.div a b = Quad.NAN)
  ∧ (a.is_nan = false → b.is_zero = true → a.is_zero = true → Quad.div a b = Quad.NAN)
  ∧ (a.is_nan = false → b.is_zero = true → a.is_zero = false →
      ((a.is_sign_negative = b.is_sign_negative → Quad.div a b = Quad.INFINITY)
       ∧ (¬(a.is_sign_negative = b.is_sign_negative) → Quad.div a b = Quad.NEG_INFINITY)))
  ∧ (a.is_nan = false → b.is_nan = false → a.is_infinite = true → b.is_infinite = true →
      Quad.div a b = Quad.NAN)
  ∧ (a.is_nan = false → b.is_nan = false → b.is_zero = false → a.is_infinite = true →
      b.is_infinite = false →
      ((a.is_sign_negative = b.is_sign_negative → Quad.div a b = Quad.INFINITY)
       ∧ (¬(a.is_sign_negative = b.is_sign_negative) → Quad.div a b = Quad.NEG_INFINITY)))
  ∧ (a.is_nan = false → b.is_nan = false → a.is_infinite = false → b.is_infinite = true →
      ((a.is_sign_negative = b.is_sign_negative → Quad.div a b = Quad.ZERO)
       ∧ (¬(a.is_sign_negative = b.is_sign_negative) → Quad.div a b = Quad.NEG_ZERO))) := by
  refine ⟨?_, ?_, ?_, ?_, ?_, ?_⟩
  · intro h
    simp [Quad.div, h]
  · intro h1 h2 h3
    have hbn : b.is_nan = false := quad_nan_of_zero h2
    simp [Quad.div, h1, hbn, h2, h3]
  · intro h1 h2 h3
    have hbn : b.is_nan = false := quad_nan_of_zero h2
    have hp : b.is_sign_positive = !b.is_sign_negative := rfl
    constructor
    · intro hs
      have hcond : (a.is_sign_negative == b.is_sign_positive) = false := by
        rw [hp, hs]
        cases b.is_sign_negative <;> rfl
      simp [Quad.div, h1, hbn, h2, h3, hcond]
    · intro hs
      have hcond : (a.is_sign_negative == b.is_sign_positive) = true := by
        rw [hp]
        cases ha : a.is_sign_negative <;> cases hb2 : b.is_sign_negative <;> simp_all
      simp [Quad.div, h1, hbn, h2, h3, hcond]
  · intro h1 h2 h3 h4
    have hbz : b.is_zero = false := quad_zero_of_inf h4
    simp [Quad.div, h1, h2, hbz, h3, h4]
  · intro h1 h2 h3 h4 h5
    have hpa : a.is_sign_positive = !a.is_sign_negative := rfl
    have hpb : b.is_sign_positive = !b.is_sign_negative := rfl
    constructor
    · intro hs
      have hcond : (a.is_sign_positive == b.is_sign_positive) = true := by
        rw [hpa, hpb, hs]
        cases b.is_sign_negative <;> rfl
      simp [Quad.div, h1, h2, h3, h4, h5, hcond]
    · intro hs
      have hcond : (a.is_sign_positive == b.is_sign_positive) = false := by
        rw [hpa, hpb]
        cases ha : a.is_sign_negative <;> cases hb2 : b.is_sign_negative <;> simp_all
      simp [Quad.div, h1, h2, h3, h4, h5, hcond]
  · intro h1 h2 h3 h4
    have hbz : b.is_zero = false := quad_zero_of_inf h4
    have hpa : a.is_sign_positive = !a.is_sign_negative := rfl
    have hpb : b.is_sign_positive = !b.is_sign_negative := rfl
    constructor
    · intro hs
      have hcond : (a.is_sign_positive == b.is_sign_positive) = true := by
        rw [hpa, hpb, hs]
        cases b.is_sign_negative <;> rfl
      simp [Quad.div, h1, h2, hbz, h3, h4, hcond]
    · intro hs
      have hcond : (a.is_sign_positive == b.is_sign_positive) = false := by
        rw [hpa, hpb]
        cases ha : a.is_sign_negative <;> cases hb2 : b.is_sign_negative <;> simp_all
      simp [Quad.div, h1, h2, hbz, h3, h4, hcond]

/-- Witness for C1: `1 / (-0) = -infinity` concretely. -/
theorem c1_div_special_values_witness : Quad.div Quad.ONE Quad.NEG_ZERO = Quad.NEG_INFINITY :=
  ((c1_div_special_values Quad.ONE Quad.NEG_ZERO).2.2.1 rfl
    (by norm_num [Quad.is_zero, isZeroB, Quad.NEG_ZERO])
    (by norm_num [Quad.is_zero, isZeroB, Quad.ONE, flPZ])).2
    (by simp [Quad.is_sign_negative, Quad.ONE, Quad.NEG_ZERO, signBit])

/-- Claim C5: on finite, nonzero, non-NaN operands, `Quad` division equals
the spec-worded algorithm — a native-float quotient of the leading limbs,
exactly four remainder-refinement iterations, and a renormalization of the
five accumulated quotient terms. -/
theorem c5_div_refinement (a b : Quad)
    (h1 : a.is_nan = false) (h2 : b.is_nan = false)
    (h3 : a.is_zero = false) (h4 : b.is_zero = false)
    (h5 : a.is_infinite = false) (h6 : b.is_infinite = false) :
    Quad.div a b = Quad.divSpecIter a b := by
  simp only [Quad.div, h1, h2, h4, h5, h6, Bool.or_self, Bool.false_eq_true, if_false]
  rfl

/-- Witness for C5 at the concrete operands 1 and 2. -/
theorem c5_div_refinement_witness :
    Quad.div ⟨.fin false 1, flPZ, flPZ, flPZ⟩ ⟨.fin false 2, flPZ, flPZ, flPZ⟩
      = Quad.divSpecIter ⟨.fin false 1, flPZ, flPZ, flPZ⟩ ⟨.fin false 2, flPZ, flPZ, flPZ⟩ :=
  c5_div_refinement _ _ rfl rfl
    (by norm_num [Quad.is_zero, isZeroB, flPZ])
    (by norm_num [Quad.is_zero, isZeroB, flPZ])
    rfl rfl

/-! ## Quadrant range of `reduce` -/

theorem quadrant_floor_bounds (v vc p2h : ℚ) (hvc : 0 < vc) (hp2 : 0 < p2h)
    (hlt : vc < 5 * p2h) :
    -2 ≤ ⌊(v - (rustRound (v / vc) : ℚ) * vc) / p2h + 1/2⌋
      ∧ ⌊(v - (rustRound (v / vc) : ℚ) * vc) / p2h + 1/2⌋ ≤ 2 := by
  have h1 := rustRound_abs (v / vc)
  have he : v - (rustRound (v / vc) : ℚ) * vc = vc * (v / vc - (rustRound (v / vc) : ℚ)) := by
    field_simp
    ring
  have hrv : |v - (rustRound (v / vc) : ℚ) * vc| ≤ vc / 2 := by
    rw [he, abs_mul, abs_of_pos hvc]
    have h2 := mul_le_mul_of_nonneg_left h1 hvc.le
    linarith
  obtain ⟨ha1, ha2⟩ := abs_le.mp hrv
  constructor
  · apply Int.le_floor.mpr
    have h3 : -(5/2 : ℚ) ≤ (v - (rustRound (v / vc) : ℚ) * vc) / p2h := by
      rw [le_div_iff₀ hp2]
      linarith
    push_cast
    linarith
  · have h4 : (v - (rustRound (v / vc) : ℚ) * vc) / p2h < 5/2 := by
      rw [div_lt_iff₀ hp2]
      linarith
    have h5 : (v - (rustRound (v / vc) : ℚ) * vc) / p2h + 1/2 < ((3 : ℤ) : ℚ) := by
      push_cast
      linarith
    have h6 := Int.floor_lt.mpr h5
    omega

/-- The quadrant index produced by `reduce` on finite limbs: an explicit
floor formula over the represented value, and the range `[-2, 2]`. -/
theorem reduce_j_spec (a : Double) (h1 : isFinB a.hi = true) (h2 : isFinB a.lo = true) :
    (reduce a).1
      = ⌊(sval a.hi + sval a.lo
          - (rustRound ((sval a.hi + sval a.lo)
              / (sval Double.MUL_2_PI.hi + sval Double.MUL_2_PI.lo)) : ℚ)
            * (sval Double.MUL_2_PI.hi + sval Double.MUL_2_PI.lo))
          / sval Double.FRAC_PI_2.hi + 1/2⌋
      ∧ -2 ≤ (reduce a).1 ∧ (reduce a).1 ≤ 2 := by
  have haN : a.is_nan = false := isNanB_of_fin h1
  have haI : a.is_infinite = false := isInfB_of_fin h1
  have hbN : Double.MUL_2_PI.is_nan = false := rfl
  have hbI : Double.MUL_2_PI.is_infinite = false := rfl
  have hbZ : Double.MUL_2_PI.is_zero = false := by
    norm_num [Double.is_zero, isZeroB, Double.MUL_2_PI]
  have hdiv : Double.div a Double.MUL_2_PI = ⟨flDiv a.val Double.MUL_2_PI.val, flPZ⟩ := by
    simp [Double.div, haN, hbN, hbZ, haI, hbI]
  have hred : (reduce a).1
      = flToI32 (flFloor (flAdd (flDiv
          (Double.sub a (Double.mul (Double.round (Double.div a Double.MUL_2_PI))
            Double.MUL_2_PI)).hi
          Double.FRAC_PI_2.hi) (.fin false (1/2)))) := rfl
  rw [hdiv] at hred
  have hred2 : (reduce a).1
      = flToI32 (flFloor (flAdd (flDiv
          (flSub (flAdd a.hi a.lo)
            (flAdd (flMul
              (flAdd (flRound (flAdd (flDiv (flAdd a.hi a.lo)
                (flAdd Double.MUL_2_PI.hi Double.MUL_2_PI.lo)) flPZ)) flPZ)
              (flAdd Double.MUL_2_PI.hi Double.MUL_2_PI.lo)) flPZ))
          Double.FRAC_PI_2.hi) (Fl.fin false (1/2)))) := by
    rw [hred]
    rfl
  set t0 : Fl := flAdd a.hi a.lo with ht0
  set tC : Fl := flAdd Double.MUL_2_PI.hi Double.MUL_2_PI.lo with htC
  set t1 : Fl := flDiv t0 tC with ht1
  set t2 : Fl := flAdd t1 flPZ with ht2
  set t3 : Fl := flRound t2 with ht3
  set t4 : Fl := flAdd t3 flPZ with ht4
  set t5 : Fl := flMul t4 tC with ht5
  set t6 : Fl := flAdd t5 flPZ with ht6
  set t7 : Fl := flSub t0 t6 with ht7
  set t8 : Fl := flDiv t7 Double.FRAC_PI_2.hi with ht8
  set t9 : Fl := flAdd t8 (Fl.fin false (1/2)) with ht9
  set tQ : Fl := flFloor t9 with htQ
  have f0 : isFinB t0 = true := (flAdd_fin h1 h2).1
  have s0 : sval t0 = sval a.hi + sval a.lo := (flAdd_fin h1 h2).2
  have fC : isFinB tC = true :=
    (@flAdd_fin Double.MUL_2_PI.hi Double.MUL_2_PI.lo rfl rfl).1
  have sC : sval tC = sval Double.MUL_2_PI.hi + sval Double.MUL_2_PI.lo :=
    (@flAdd_fin Double.MUL_2_PI.hi Double.MUL_2_PI.lo rfl rfl).2
  have sCpos : 0 < sval tC := by
    rw [sC]
    norm_num [Double.MUL_2_PI, sval]
  have hp2posv : 0 < sval Double.FRAC_PI_2.hi := by
    norm_num [Double.FRAC_PI_2, sval]
  have hltv : sval tC < 5 * sval Double.FRAC_PI_2.hi := by
    rw [sC]
    norm_num [Double.MUL_2_PI, Double.FRAC_PI_2, sval]
  have f1 : isFinB t1 = true := (flDiv_fin f0 fC sCpos.ne').1
  have s1 : sval t1 = sval t0 / sval tC := (flDiv_fin f0 fC sCpos.ne').2
  have f2 : isFinB t2 = true := (flAdd_fin f1 isFinB_flPZ).1
  have s2 : sval t2 = sval t1 := by
    rw [(flAdd_fin f1 isFinB_flPZ).2, sval_flPZ, add_zero]
  have f3 : isFinB t3 = true := (flRound_finB f2).1
  have s3 : sval t3 = (rustRound (sval t2) : ℚ) := (flRound_finB f2).2
  have f4 : isFinB t4 = true := (flAdd_fin f3 isFinB_flPZ).1
  have s4 : sval t4 = sval t3 := by
    rw [(flAdd_fin f3 isFinB_flPZ).2, sval_flPZ, add_zero]
  have f5 : isFinB t5 = true := (flMul_fin f4 fC).1
  have s5 : sval t5 = sval t4 * sval tC := (flMul_fin f4 fC).2
  have f6 : isFinB t6 = true := (flAdd_fin f5 isFinB_flPZ).1
  have s6 : sval t6 = sval t5 := by
    rw [(flAdd_fin f5 isFinB_flPZ).2, sval_flPZ, add_zero]
  have f7 : isFinB t7 = true := (flSub_fin f0 f6).1
  have s7 : sval t7 = sval t0 - sval t6 := (flSub_fin f0 f6).2
  have fP2 : isFinB Double.FRAC_PI_2.hi = true := rfl
  have f8 : isFinB t8 = true := (flDiv_fin f7 fP2 hp2posv.ne').1
  have s8 : sval t8 = sval t7 / sval Double.FRAC_PI_2.hi := (flDiv_fin f7 fP2 hp2posv.ne').2
  have fH : isFinB (Fl.fin false (1/2)) = true := rfl
  have f9 : isFinB t9 = true := (flAdd_fin f8 fH).1
  have s9 : sval t9 = sval t8 + 1/2 := by
    rw [(flAdd_fin f8 fH).2]
    norm_num [sval]
  have fQ : isFinB tQ = true := (flFloor_finB f9).1
  have sQ : sval tQ = (⌊sval t9⌋ : ℚ) := (flFloor_finB f9).2
  have hsw : sval t9
      = (sval t0 - (rustRound (sval t0 / sval tC) : ℚ) * sval tC)
          / sval Double.FRAC_PI_2.hi + 1/2 := by
    rw [s9, s8, s7, s6, s5, s4, s3, s2, s1]
  obtain ⟨hb1, hb2⟩ := quadrant_floor_bounds (sval t0) (sval tC)
    (sval Double.FRAC_PI_2.hi) sCpos hp2posv hltv
  have hq1 : qTrunc (sval tQ) = ⌊sval t9⌋ := by
    rw [sQ]
    exact qTrunc_intCast _
  have hfl : -2147483648 ≤ qTrunc (sval tQ) := by
    rw [hq1, hsw]
    omega
  have hfr : qTrunc (sval tQ) ≤ 2147483647 := by
    rw [hq1, hsw]
    omega
  have hjeq : (reduce a).1 = ⌊sval t9⌋ := by
    rw [hred2, flToI32_finB fQ hfl hfr, hq1]
  refine ⟨?_, ?_, ?_⟩
  · rw [hjeq, hsw, s0, sC]
  · rw [hjeq, hsw]
    exact hb1
  · rw [hjeq, hsw]
    exact hb2

/-- Claim C2 counterexample: at the finite input `-1` the quadrant index
returned by `reduce` is `-1`, which does not lie in `[0, 3]`. -/
theorem c2_quadrant_counterexample :
    ¬(0 ≤ (reduce ⟨.fin true 1, .fin false 0⟩).1
        ∧ (reduce ⟨.fin true 1, .fin false 0⟩).1 ≤ 3) := by
  have h := (reduce_j_spec ⟨.fin true 1, .fin false 0⟩ rfl rfl).1
  have e1 : sval (Fl.fin true 1) + sval (Fl.fin false 0) = -1 := by norm_num [sval]
  have e2 : sval Double.MUL_2_PI.hi + sval Double.MUL_2_PI.lo
      = (884279719003555 / 2 ^ 47 + 4967757600021511 / 2 ^ 104 : ℚ) := by
    simp [Double.MUL_2_PI, sval]
  have e3 : sval Double.FRAC_PI_2.hi = (884279719003555 / 2 ^ 49 : ℚ) := by
    simp [Double.FRAC_PI_2, sval]
  rw [e1, e2, e3] at h
  have hz : rustRound ((-1 : ℚ) / (884279719003555 / 2 ^ 47 + 4967757600021511 / 2 ^ 104)) = 0 := by
    have hneg : ¬(0 ≤ (-1 : ℚ) / (884279719003555 / 2 ^ 47 + 4967757600021511 / 2 ^ 104)) := by
      norm_num
    rw [rustRound, if_neg hneg]
    have hfloor :
        ⌊-((-1 : ℚ) / (884279719003555 / 2 ^ 47 + 4967757600021511 / 2 ^ 104)) + 1/2⌋ = 0 := by
      rw [Int.floor_eq_zero_iff, Set.mem_Ico]
      constructor
      · norm_num
      · norm_num
    rw [hfloor]
    simp
  rw [hz] at h
  have hv : (reduce (⟨.fin true 1, .fin false 0⟩ : Double)).1 = -1 := by
    rw [h]
    have e4 : ((-1 : ℚ) - ((0 : ℤ) : ℚ)
          * (884279719003555 / 2 ^ 47 + 4967757600021511 / 2 ^ 104))
          / (884279719003555 / 2 ^ 49) + 1/2
        = -1 / (884279719003555 / 2 ^ 49 : ℚ) + 1/2 := by
      push_cast
      ring
    rw [e4]
    have e5 : ⌊(-1 / (884279719003555 / 2 ^ 49 : ℚ) + 1/2)⌋ = -1 := by
      apply Int.floor_eq_iff.mpr
      constructor
      · norm_num
      · norm_num
    exact e5
  rw [hv]
  omega

/-- Claim C2 (amended): for every finite `Double` input, the quadrant index
`j` returned by `reduce` lies in `[-2, 2]` (not `[0, 3]` as claimed). -/
theorem c2_quadrant_range (a : Double) (h1 : isFinB a.hi = true) (h2 : isFinB a.lo = true) :
    -2 ≤ (reduce a).1 ∧ (reduce a).1 ≤ 2 :=
  ⟨(reduce_j_spec a h1 h2).2.1, (reduce_j_spec a h1 h2).2.2⟩

/-- Witness for C2 (amended) at the concrete finite input 5. -/
theorem c2_quadrant_range_witness :
    -2 ≤ (reduce ⟨.fin false 5, .fin false 0⟩).1
      ∧ (reduce ⟨.fin false 5, .fin false 0⟩).1 ≤ 2 :=
  c2_quadrant_range ⟨.fin false 5, .fin false 0⟩ rfl rfl
